import Mathlib

/-!
# go.blowfish: CBC wrapper around the Blowfish block primitive

A shallow embedding of `blowfish.go` (`Encrypt`, `Decrypt`, `checksizeAndPad`).

* A Go `[]byte` is a `List Byte`; a slice that may be `nil` and whose nil-ness the code
  inspects (`iv`) is an `Option (List Byte)`, `none` standing for `nil`.
* A Go call either returns its `([]byte, error)` pair or panics: `Outcome`.
* The block primitive (`blowfish.NewCipher` and the cipher it returns) belongs to an external
  package; it is a parameter of `Encrypt` and `Decrypt`.
* The CBC mode of `crypto/cipher` is modelled on byte lists.
* `Decrypt` overwrites its argument; `DecryptInPlace` carries the content of the caller's
  buffer along with the outcome.
-/

set_option linter.unusedVariables false

namespace Blowfish

/-! ## Data model -/

/-- A Go `byte`. -/
abbrev Byte := Fin 256

/-- The constant `blowfish.BlockSize`. -/
def BlockSize : Nat := 8

/-- An 8-byte block, the unit the primitive reads and writes. -/
abbrev Block := { l : List Byte // l.length = 8 }

/-- The value `cipher.Block` returned by `blowfish.NewCipher`: its two block transforms. -/
structure Cipher where
  /-- The method `Encrypt(dst, src)` on one block. -/
  Encrypt : Block → Block
  /-- The method `Decrypt(dst, src)` on one block. -/
  Decrypt : Block → Block

/-- The signature of `blowfish.NewCipher`: a key is accepted (`ok`) or rejected with an
error message (`error`). -/
abbrev KeySetup := List Byte → Except String Cipher

/-- The value carried by a Go panic. -/
inductive PanicValue where
  /-- The call `panic(err)` after `blowfish.NewCipher` failed (lines 30 and 67). -/
  | keyError (err : String)
  /-- The runtime error "slice bounds out of range" of a slice expression. -/
  | sliceBounds
  /-- The call `panic("decrypted is not a multiple of blowfish.BlockSize")` (line 76). -/
  | notMultiple
  /-- A panic raised inside `crypto/cipher`, with its message. -/
  | cbc (msg : String)
  deriving DecidableEq, Repr

/-- What a call of `Encrypt` or `Decrypt` does: it returns the pair `([]byte, error)`
(`none` is `nil` in either component) or it panics. -/
inductive Outcome where
  | ret (data : Option (List Byte)) (err : Option String)
  | panic (p : PanicValue)
  deriving DecidableEq, Repr

/-- The package variable `defaultIV`: eight zero bytes. -/
def defaultIV : List Byte := [0x00, 0x00, 0x00, 0x00, 0x00, 0x00, 0x00, 0x00]

/-! ## Slice expressions -/

/-- The slice expression `s[:n]`. The slice passed in is taken with capacity equal to its
length, so the expression panics exactly when `n` exceeds the length. (With spare capacity
`s[:n]` would succeed for `len(s) < n`; in `Decrypt` the next expression `s[n:]` then raises
the same runtime error.) -/
def sliceTo (s : List Byte) (n : Nat) : Except PanicValue (List Byte) :=
  if n ≤ s.length then .ok (s.take n) else .error .sliceBounds

/-- The slice expression `s[n:]`: panics when `n` exceeds the length. -/
def sliceFrom (s : List Byte) (n : Nat) : Except PanicValue (List Byte) :=
  if n ≤ s.length then .ok (s.drop n) else .error .sliceBounds

/-! ## CBC mode of `crypto/cipher` -/

/-- Modelled from the spec: the helper `xorBytes` of `crypto/cipher` is not under src/. It is
the byte-wise exclusive or over the common length. -/
def xorBytes (a b : List Byte) : List Byte := List.zipWith (fun x y => x ^^^ y) a b

/-- The first eight bytes of a buffer as a block. The CBC loops only hand over buffers that
hold at least eight bytes, where this is `take 8`. -/
def toBlock (l : List Byte) : Block :=
  ⟨(l ++ List.replicate 8 (0 : Byte)).take 8, by simp⟩

/-- Modelled from the spec: `cipher.NewCBCEncrypter` and `cipher.NewCBCDecrypter` of the Go
standard library are not under src/. Both panic when the iv is not one block long and
otherwise keep a private copy of it. -/
def NewCBC (who : String) (iv : List Byte) : Except PanicValue (List Byte) :=
  if iv.length ≠ BlockSize then .error (.cbc (who ++ ": IV length must equal block size"))
  else .ok iv

/-- Modelled from the spec: the CBC encrypter of `crypto/cipher` is not under src/. Its loop
over `n` blocks of `src` xors each block with the previous output block (the iv for the
first) and then encrypts it. -/
def encryptBlocks (c : Cipher) : Nat → List Byte → List Byte → List Byte
  | 0, _, _ => []
  | n + 1, iv, src =>
    let out := (c.Encrypt (toBlock (xorBytes (src.take 8) iv))).val
    out ++ encryptBlocks c n out (src.drop 8)

/-- Modelled from the spec: the CBC decrypter of `crypto/cipher` is not under src/. Its loop
over `n` blocks of `src` decrypts each block and then xors it with the previous ciphertext
block (the iv for the first). -/
def decryptBlocks (c : Cipher) : Nat → List Byte → List Byte → List Byte
  | 0, _, _ => []
  | n + 1, iv, src =>
    xorBytes (c.Decrypt (toBlock (src.take 8))).val iv
      ++ decryptBlocks c n (src.take 8) (src.drop 8)

/-- Modelled from the spec: the `CryptBlocks` methods of `crypto/cipher` are not under src/.
Both panic on an input that is not a whole number of blocks or on an output shorter than the
input, then run their loop `run` over the blocks of `src`; the result is the new content of
`dst` (bytes of `dst` past `len(src)` are kept). -/
def CryptBlocks (run : Nat → List Byte → List Byte → List Byte) (iv dst src : List Byte) :
    Except PanicValue (List Byte) :=
  if src.length % BlockSize ≠ 0 then .error (.cbc "crypto/cipher: input not full blocks")
  else if dst.length < src.length then
    .error (.cbc "crypto/cipher: output smaller than input")
  else .ok (run (src.length / BlockSize) iv src ++ dst.drop src.length)

/-! ## The package -/

/-- The loop `for i := 0; i < padlen; i++ { plaintext = append(plaintext, 0) }`. -/
def padLoop : Nat → List Byte → List Byte
  | 0, plaintext => plaintext
  | n + 1, plaintext => padLoop n (plaintext ++ [0])

/-- The function `checksizeAndPad`. -/
def checksizeAndPad (plaintext : List Byte) : List Byte :=
  let modulus := plaintext.length % BlockSize
  if modulus ≠ 0 then
    let padlen := BlockSize - modulus
    padLoop padlen plaintext
  else plaintext

/-- The body of `Encrypt` after the iv switch (lines 24 to 46); `iv` is the validated or
defaulted iv, which line 37 rebinds to the first block of the fresh output buffer. -/
def encryptBody (NewCipher : KeySetup) (plaintext key iv : List Byte) : Outcome :=
  let plaintext := checksizeAndPad plaintext
  match NewCipher key with
  | .error err => .panic (.keyError err)
  | .ok ecipher =>
    let ciphertext := List.replicate (BlockSize + plaintext.length) (0 : Byte)
    match sliceTo ciphertext BlockSize with
    | .error p => .panic p
    | .ok iv =>
      match NewCBC "cipher.NewCBCEncrypter" iv with
      | .error p => .panic p
      | .ok ecbcIV =>
        match sliceFrom ciphertext BlockSize with
        | .error p => .panic p
        | .ok dst =>
          match CryptBlocks (encryptBlocks ecipher) ecbcIV dst plaintext with
          | .error p => .panic p
          | .ok written => .ret (some (ciphertext.take BlockSize ++ written)) none

/-- The function `Encrypt`. -/
def Encrypt (NewCipher : KeySetup) (plaintext key : List Byte) (iv : Option (List Byte)) :
    Outcome :=
  match iv with
  | none => encryptBody NewCipher plaintext key defaultIV
  | some v =>
    if v.length ≠ 8 then .ret none (some "invalid iv length")
    else encryptBody NewCipher plaintext key v

/-- The body of `Decrypt` after the switch (lines 64 to 85); `iv` is the validated or
defaulted iv, which line 71 rebinds to the first block of the ciphertext. -/
def decryptBody (NewCipher : KeySetup) (ciphertext key iv : List Byte) : Outcome :=
  match NewCipher key with
  | .error err => .panic (.keyError err)
  | .ok dcipher =>
    match sliceTo ciphertext BlockSize with
    | .error p => .panic p
    | .ok iv =>
      match sliceFrom ciphertext BlockSize with
      | .error p => .panic p
      | .ok decrypted =>
        if decrypted.length % BlockSize ≠ 0 then .panic .notMultiple
        else
          match NewCBC "cipher.NewCBCDecrypter" iv with
          | .error p => .panic p
          | .ok dcbcIV =>
            match CryptBlocks (decryptBlocks dcipher) dcbcIV decrypted decrypted with
            | .error p => .panic p
            | .ok written => .ret (some written) none

/-- The function `Decrypt`. -/
def Decrypt (NewCipher : KeySetup) (ciphertext key : List Byte) (iv : Option (List Byte)) :
    Outcome :=
  if ciphertext.length % 8 ≠ 0 then .ret none (some "invalid ciphertext length")
  else
    match iv with
    | none => decryptBody NewCipher ciphertext key defaultIV
    | some v =>
      if v.length ≠ 8 then .ret none (some "invalid iv length")
      else decryptBody NewCipher ciphertext key v

/-- A valid iv argument: `nil`, or exactly eight bytes. -/
def ValidIV (iv : Option (List Byte)) : Prop :=
  match iv with
  | none => True
  | some v => v.length = 8

instance instDecidableValidIV (iv : Option (List Byte)) : Decidable (ValidIV iv) := by
  cases iv <;> simp only [ValidIV] <;> infer_instance

/-- The `i`-th 8-byte block of a byte sequence (blocks counted from 0). -/
def blockAt (l : List Byte) (i : Nat) : List Byte := (l.drop (8 * i)).take 8

/-! ## `Decrypt` on explicit buffer state -/

/-- The buffer `mem` after `data` has been stored in it from offset `off` on. -/
def writeAt (mem : List Byte) (off : Nat) (data : List Byte) : List Byte :=
  mem.take off ++ data ++ mem.drop (off + data.length)

/-- The body of `Decrypt` (lines 64 to 85) with the caller's buffer made explicit: `mem` is
the content of the buffer the slice `ciphertext` spans, and the result pairs the outcome with
the content of that buffer when the call ends. The slice `decrypted` is the part of the
buffer from offset 8 on, so what `CryptBlocks(decrypted, decrypted)` writes lands there; the
decrypter works on its own copy of the iv and writes nothing before offset 8. -/
def decryptBodyInPlace (NewCipher : KeySetup) (mem key iv : List Byte) :
    Outcome × List Byte :=
  match NewCipher key with
  | .error err => (.panic (.keyError err), mem)
  | .ok dcipher =>
    match sliceTo mem BlockSize with
    | .error p => (.panic p, mem)
    | .ok iv =>
      match sliceFrom mem BlockSize with
      | .error p => (.panic p, mem)
      | .ok decrypted =>
        if decrypted.length % BlockSize ≠ 0 then (.panic .notMultiple, mem)
        else
          match NewCBC "cipher.NewCBCDecrypter" iv with
          | .error p => (.panic p, mem)
          | .ok dcbcIV =>
            match CryptBlocks (decryptBlocks dcipher) dcbcIV decrypted decrypted with
            | .error p => (.panic p, mem)
            | .ok written => (.ret (some written) none, writeAt mem BlockSize written)

/-- The function `Decrypt` with the caller's buffer made explicit: the outcome, and the
content of the buffer behind `ciphertext` when the call ends. -/
def DecryptInPlace (NewCipher : KeySetup) (mem key : List Byte) (iv : Option (List Byte)) :
    Outcome × List Byte :=
  if mem.length % 8 ≠ 0 then (.ret none (some "invalid ciphertext length"), mem)
  else
    match iv with
    | none => decryptBodyInPlace NewCipher mem key defaultIV
    | some v =>
      if v.length ≠ 8 then (.ret none (some "invalid iv length"), mem)
      else decryptBodyInPlace NewCipher mem key v

/-! ## A sample primitive and the test data -/

/-- A sample block transform: xor every byte with `k`, then reverse the block. -/
def sampleEncrypt (k : Byte) (b : Block) : Block :=
  ⟨(b.val.map (fun x => x ^^^ k)).reverse, by simp [b.2]⟩

/-- The inverse of `sampleEncrypt k`. -/
def sampleDecrypt (k : Byte) (b : Block) : Block :=
  ⟨b.val.reverse.map (fun x => x ^^^ k), by simp [b.2]⟩

/-- The sample cipher keyed by the byte `k`. -/
def sampleCipher (k : Byte) : Cipher := ⟨sampleEncrypt k, sampleDecrypt k⟩

/-- A sample primitive for concrete runs: it accepts the keys of `lo` to `hi` bytes
(Blowfish itself: 1 to 56) and rejects the others with a key size error. -/
def sampleNewCipher (lo hi : Nat) : KeySetup := fun key =>
  if key.length < lo ∨ hi < key.length then .error "crypto/blowfish: invalid key size"
  else .ok (sampleCipher (key.headD 0))

/-- The test variable `key`. -/
def testKey : List Byte :=
  [0x79, 0x67, 0x4f, 0x68, 0x6d, 0x31, 0x6d, 0x38,
   0x74, 0x54, 0x67, 0x52, 0x58, 0x4f, 0x6a, 0x4d,
   0x79, 0x54, 0x61, 0x64, 0x5a, 0x4f, 0x76, 0x45]

/-- The test variable `iv`. -/
def testIV : List Byte := [0x6c, 0x61, 0x6b, 0x73, 0x6a, 0x64, 0x68, 0x72]

/-- The test variable `input`. -/
def testInput : List Byte :=
  [0x6b, 0x52, 0x32, 0x56, 0x61, 0x7a, 0x6f, 0x6d,
   0x67, 0x6f, 0x64, 0x68, 0x31, 0x4b, 0x76, 0x69,
   0x51, 0x72, 0x76, 0x52, 0x36, 0x67, 0x3d, 0x3d]

/-- The test variable `output`. -/
def testOutput : List Byte :=
  [0x87, 0xb7, 0x0b, 0xc8, 0x67, 0xc9, 0xab, 0xee,
   0x5a, 0xf9, 0xd5, 0xa3, 0xde, 0x7e, 0x97, 0x6f,
   0x2c, 0xfb, 0x39, 0xdb, 0x87, 0xd4, 0xda, 0x3a]

/-- The test variable `badData`. -/
def badData : List Byte := [0x4d, 0x61, 0x69, 0x74, 0x65]

/-! ## Auxiliary lemmas -/

theorem byte_xor_cancel (x y : Byte) : (x ^^^ y) ^^^ y = x := by
  apply Fin.ext
  have hx : x.val < 2 ^ 8 := x.isLt
  have hy : y.val < 2 ^ 8 := y.isLt
  have h1 : x.val ^^^ y.val < 2 ^ 8 := Nat.xor_lt_two_pow hx hy
  have hx2 : x.val < 256 := x.isLt
  have h2 : x.val ^^^ y.val < 256 := by simpa using h1
  show ((x.val ^^^ y.val) % 256 ^^^ y.val) % 256 = x.val
  rw [Nat.mod_eq_of_lt h2, Nat.xor_assoc, Nat.xor_self, Nat.xor_zero, Nat.mod_eq_of_lt hx2]

theorem xorBytes_cancel (a iv : List Byte) (h : a.length ≤ iv.length) :
    xorBytes (xorBytes a iv) iv = a := by
  induction a generalizing iv with
  | nil => simp [xorBytes]
  | cons x xs ih =>
    cases iv with
    | nil => simp at h
    | cons y ys =>
      have hl : xs.length ≤ ys.length := by simpa using h
      have ih2 := ih ys hl
      simp only [xorBytes] at ih2 ⊢
      simp only [List.zipWith_cons_cons, ih2, byte_xor_cancel]

theorem xorBytes_length (a b : List Byte) : (xorBytes a b).length = min a.length b.length := by
  simp [xorBytes]

theorem toBlock_val (l : List Byte) (h : l.length = 8) : (toBlock l).val = l := by
  simp only [toBlock]
  rw [List.take_append_of_le_length (by omega)]
  exact List.take_of_length_le (by omega)

theorem toBlock_eq (b : Block) : toBlock b.val = b := Subtype.ext (toBlock_val b.val b.2)

theorem padLoop_eq (n : Nat) (p : List Byte) : padLoop n p = p ++ List.replicate n 0 := by
  induction n generalizing p with
  | zero => simp [padLoop]
  | succ k ih => simp [padLoop, ih, List.replicate_succ]

theorem checksizeAndPad_eq (p : List Byte) :
    checksizeAndPad p = p ++ List.replicate ((8 - p.length % 8) % 8) 0 := by
  unfold checksizeAndPad
  simp only [BlockSize]
  split
  · rename_i h
    rw [padLoop_eq]
    have : (8 - p.length % 8) % 8 = 8 - p.length % 8 := by omega
    rw [this]
  · rename_i h
    have : (8 - p.length % 8) % 8 = 0 := by omega
    simp [this]

theorem checksizeAndPad_length (p : List Byte) :
    (checksizeAndPad p).length = 8 * ((p.length + 7) / 8) := by
  rw [checksizeAndPad_eq]
  simp only [List.length_append, List.length_replicate]
  omega

theorem checksizeAndPad_aligned (p : List Byte) : (checksizeAndPad p).length % 8 = 0 := by
  rw [checksizeAndPad_length]; omega

theorem encryptBlocks_length (c : Cipher) (n : Nat) (iv src : List Byte) :
    (encryptBlocks c n iv src).length = 8 * n := by
  induction n generalizing iv src with
  | zero => simp [encryptBlocks]
  | succ k ih =>
    simp only [encryptBlocks, List.length_append, ih]
    have h := (c.Encrypt (toBlock (xorBytes (List.take 8 src) iv))).2
    omega

/-- With an accepted key, `Encrypt`'s body returns eight zero bytes followed by the CBC
encryption of the padded plaintext chained from the zero block. -/
theorem encryptBody_ok (nc : KeySetup) (p key iv : List Byte) (c : Cipher)
    (hk : nc key = .ok c) :
    encryptBody nc p key iv =
      .ret (some (List.replicate 8 0 ++
        encryptBlocks c ((checksizeAndPad p).length / 8) (List.replicate 8 0)
          (checksizeAndPad p))) none := by
  have ha := checksizeAndPad_aligned p
  simp only [encryptBody, hk, sliceTo, sliceFrom, NewCBC, CryptBlocks, BlockSize,
    List.length_replicate, List.take_replicate, List.drop_replicate, ha]
  simp

theorem encryptBody_rejected (nc : KeySetup) (p key iv : List Byte) (e : String)
    (hk : nc key = .error e) : encryptBody nc p key iv = .panic (.keyError e) := by
  simp only [encryptBody, hk]

theorem encrypt_valid (nc : KeySetup) (p key : List Byte) (iv : Option (List Byte))
    (hiv : ValidIV iv) : Encrypt nc p key iv = encryptBody nc p key (iv.getD defaultIV) := by
  cases iv with
  | none => rfl
  | some v =>
    have h : v.length = 8 := hiv
    simp [Encrypt, h]

theorem decrypt_valid (nc : KeySetup) (ct key : List Byte) (iv : Option (List Byte))
    (hlen : ct.length % 8 = 0) (hiv : ValidIV iv) :
    Decrypt nc ct key iv = decryptBody nc ct key (iv.getD defaultIV) := by
  cases iv with
  | none => simp [Decrypt, hlen]
  | some v =>
    have h : v.length = 8 := hiv
    simp [Decrypt, hlen, h]

/-- With an accepted key and a ciphertext of at least one block and a whole number of blocks,
`Decrypt`'s body returns the CBC decryption of the bytes after the first block, chained from
that first block. -/
theorem decryptBody_ok (nc : KeySetup) (ct key iv : List Byte) (c : Cipher)
    (hk : nc key = .ok c) (h8 : 8 ≤ ct.length) (hlen : ct.length % 8 = 0) :
    decryptBody nc ct key iv =
      .ret (some (decryptBlocks c ((ct.length - 8) / 8) (ct.take 8) (ct.drop 8))) none := by
  have h1 : (ct.length - 8) % 8 = 0 := by omega
  have h2 : min 8 ct.length = 8 := by omega
  simp [decryptBody, hk, sliceTo, sliceFrom, NewCBC, CryptBlocks, BlockSize, h8, h1, h2]

theorem decryptBlocks_encryptBlocks (c : Cipher) (hinv : ∀ b, c.Decrypt (c.Encrypt b) = b)
    (n : Nat) (iv src : List Byte) (hiv : iv.length = 8) (hsrc : src.length = 8 * n) :
    decryptBlocks c n iv (encryptBlocks c n iv src) = src := by
  induction n generalizing iv src with
  | zero =>
    have : src = [] := List.length_eq_zero.mp (by simpa using hsrc)
    simp [decryptBlocks, this]
  | succ k ih =>
    have hx : (xorBytes (src.take 8) iv).length = 8 := by
      rw [xorBytes_length, List.length_take]; omega
    have hout := (c.Encrypt (toBlock (xorBytes (src.take 8) iv))).2
    have htake : ∀ r : List Byte,
        ((c.Encrypt (toBlock (xorBytes (src.take 8) iv))).val ++ r).take 8
          = (c.Encrypt (toBlock (xorBytes (src.take 8) iv))).val := by
      intro r
      rw [List.take_append_of_le_length (by omega)]
      exact List.take_of_length_le (by omega)
    have hdrop : ∀ r : List Byte,
        ((c.Encrypt (toBlock (xorBytes (src.take 8) iv))).val ++ r).drop 8 = r := by
      intro r
      rw [List.drop_append_of_le_length (by omega)]
      rw [List.drop_of_length_le (by omega)]
      rfl
    have hdl : (src.drop 8).length = 8 * k := by rw [List.length_drop]; omega
    have hcancel : xorBytes (xorBytes (src.take 8) iv) iv = src.take 8 :=
      xorBytes_cancel _ _ (by rw [List.length_take]; omega)
    simp only [decryptBlocks, encryptBlocks]
    rw [htake, hdrop, toBlock_eq, hinv, toBlock_val _ hx, hcancel, ih _ _ hout hdl]
    exact List.take_append_drop 8 src

/-- Decrypting a block `z` followed by the CBC encryption of `src` chained from `z` gives
back `src`, for an accepted key whose block decryption inverts its block encryption. -/
theorem decrypt_encryptBlocks (nc : KeySetup) (K : List Byte) (V : Option (List Byte))
    (c : Cipher) (hk : nc K = .ok c) (hV : ValidIV V)
    (hinv : ∀ b, c.Decrypt (c.Encrypt b) = b) (z src : List Byte) (n : Nat)
    (hz : z.length = 8) (hsrc : src.length = 8 * n) :
    Decrypt nc (z ++ encryptBlocks c n z src) K V = .ret (some src) none := by
  have hlen : (z ++ encryptBlocks c n z src).length = 8 + 8 * n := by
    rw [List.length_append, hz, encryptBlocks_length]
  rw [decrypt_valid nc _ K V (by rw [hlen]; omega) hV,
    decryptBody_ok nc _ K _ c hk (by rw [hlen]; omega) (by rw [hlen]; omega)]
  have hn : ((z ++ encryptBlocks c n z src).length - 8) / 8 = n := by rw [hlen]; omega
  rw [hn, List.take_left' hz, List.drop_left' hz,
    decryptBlocks_encryptBlocks c hinv n z src hz hsrc]

theorem sample_inverse (k : Byte) (b : Block) :
    (sampleCipher k).Decrypt ((sampleCipher k).Encrypt b) = b := by
  apply Subtype.ext
  simp [sampleCipher, sampleEncrypt, sampleDecrypt, List.map_map, Function.comp_def,
    byte_xor_cancel]

theorem checksizeAndPad_of_aligned (p : List Byte) (h : p.length % 8 = 0) :
    checksizeAndPad p = p := by
  simp [checksizeAndPad, BlockSize, h]

/-! ## Claims -/

/-- C1: round trip. For every plaintext `P`, every key the primitive accepts and every valid
iv (nil or eight bytes), when the primitive's block decryption inverts its block encryption,
`Encrypt` succeeds and `Decrypt` of its ciphertext (same key and iv) succeeds and returns `P`
followed by zero bytes up to the next multiple of 8, which is `P` itself when `len(P)` is a
multiple of 8. -/
theorem C1_round_trip (nc : KeySetup) (P K : List Byte) (V : Option (List Byte)) (c : Cipher)
    (hk : nc K = .ok c) (hV : ValidIV V) (hinv : ∀ b, c.Decrypt (c.Encrypt b) = b) :
    ∃ ct, Encrypt nc P K V = .ret (some ct) none ∧
      Decrypt nc ct K V = .ret (some (P ++ List.replicate ((8 - P.length % 8) % 8) 0)) none ∧
      (P.length % 8 = 0 → Decrypt nc ct K V = .ret (some P) none) := by
  have hpl := checksizeAndPad_length P
  have hdec := decrypt_encryptBlocks nc K V c hk hV hinv (List.replicate 8 0)
    (checksizeAndPad P) ((checksizeAndPad P).length / 8) (List.length_replicate 8 0)
    (by omega)
  refine ⟨List.replicate 8 0 ++ encryptBlocks c ((checksizeAndPad P).length / 8)
    (List.replicate 8 0) (checksizeAndPad P), ?_, ?_, ?_⟩
  · rw [encrypt_valid nc P K V hV]
    exact encryptBody_ok nc P K _ c hk
  · rw [hdec, checksizeAndPad_eq]
  · intro h0
    rw [hdec, checksizeAndPad_eq]
    have : (8 - P.length % 8) % 8 = 0 := by omega
    simp [this]

theorem C1_round_trip_witness :
    sampleNewCipher 1 56 testKey = .ok (sampleCipher 0x79) ∧ ValidIV (some testIV) ∧
    ∃ ct, Encrypt (sampleNewCipher 1 56) badData testKey (some testIV) = .ret (some ct) none ∧
      Decrypt (sampleNewCipher 1 56) ct testKey (some testIV)
        = .ret (some (badData ++ List.replicate ((8 - badData.length % 8) % 8) 0)) none ∧
      (badData.length % 8 = 0 →
        Decrypt (sampleNewCipher 1 56) ct testKey (some testIV) = .ret (some badData) none) :=
  ⟨rfl, by decide,
    C1_round_trip (sampleNewCipher 1 56) badData testKey (some testIV) (sampleCipher 0x79) rfl
      (by decide) (sample_inverse 0x79)⟩

/-- C2: length invariant. For every plaintext `P` of any length, every key the primitive
accepts and every valid iv, `Encrypt` returns no error and a ciphertext of exactly
`8 + 8 * ceil(len(P) / 8)` bytes (the ceiling written `(len(P) + 7) / 8`). -/
theorem C2_encrypt_length (nc : KeySetup) (P K : List Byte) (V : Option (List Byte))
    (c : Cipher) (hk : nc K = .ok c) (hV : ValidIV V) :
    ∃ ct, Encrypt nc P K V = .ret (some ct) none ∧
      ct.length = 8 + 8 * ((P.length + 7) / 8) := by
  refine ⟨List.replicate 8 0 ++ encryptBlocks c ((checksizeAndPad P).length / 8)
    (List.replicate 8 0) (checksizeAndPad P), ?_, ?_⟩
  · rw [encrypt_valid nc P K V hV]
    exact encryptBody_ok nc P K _ c hk
  · rw [List.length_append, List.length_replicate, encryptBlocks_length,
      checksizeAndPad_length]
    omega

theorem C2_encrypt_length_witness :
    sampleNewCipher 1 56 testKey = .ok (sampleCipher 0x79) ∧ ValidIV none ∧
    ∃ ct, Encrypt (sampleNewCipher 1 56) badData testKey none = .ret (some ct) none ∧
      ct.length = 8 + 8 * ((badData.length + 7) / 8) :=
  ⟨rfl, by decide,
    C2_encrypt_length (sampleNewCipher 1 56) badData testKey none (sampleCipher 0x79) rfl
      (by decide)⟩

/-- C3: the first eight bytes of the ciphertext returned by `Encrypt` are zero whatever iv
the caller supplies; for a supplied iv that is not all zero they differ from the iv, so the
ciphertext does not start with the effective iv. -/
theorem C3_prefix_is_zero_not_iv (nc : KeySetup) (P K iv : List Byte) (c : Cipher)
    (hk : nc K = .ok c) (hlen : iv.length = 8) (hne : iv ≠ List.replicate 8 0) :
    ∃ ct, Encrypt nc P K (some iv) = .ret (some ct) none ∧
      ct.take 8 = List.replicate 8 0 ∧ ct.take 8 ≠ iv := by
  refine ⟨List.replicate 8 0 ++ encryptBlocks c ((checksizeAndPad P).length / 8)
    (List.replicate 8 0) (checksizeAndPad P), ?_, ?_, ?_⟩
  · rw [encrypt_valid nc P K (some iv) hlen]
    exact encryptBody_ok nc P K _ c hk
  · exact List.take_left' (List.length_replicate 8 0)
  · rw [List.take_left' (List.length_replicate 8 0)]
    exact fun h => hne h.symm

theorem C3_prefix_is_zero_not_iv_witness :
    sampleNewCipher 1 56 testKey = .ok (sampleCipher 0x79) ∧ testIV.length = 8 ∧
    testIV ≠ List.replicate 8 0 ∧
    ∃ ct, Encrypt (sampleNewCipher 1 56) testInput testKey (some testIV)
        = .ret (some ct) none ∧
      ct.take 8 = List.replicate 8 0 ∧ ct.take 8 ≠ testIV :=
  ⟨rfl, rfl, by decide,
    C3_prefix_is_zero_not_iv (sampleNewCipher 1 56) testInput testKey testIV
      (sampleCipher 0x79) rfl rfl (by decide)⟩

/-- C4: default iv equivalence. For every plaintext `P` and accepted key `K`,
`Encrypt(P, K, nil)` and `Encrypt(P, K, iv)` with `iv` eight zero bytes return the same
ciphertext. -/
theorem C4_default_iv (nc : KeySetup) (P K : List Byte) (c : Cipher) (hk : nc K = .ok c) :
    ∃ ct, Encrypt nc P K none = .ret (some ct) none ∧
      Encrypt nc P K (some (List.replicate 8 0)) = .ret (some ct) none := by
  refine ⟨List.replicate 8 0 ++ encryptBlocks c ((checksizeAndPad P).length / 8)
    (List.replicate 8 0) (checksizeAndPad P), ?_, ?_⟩
  · rw [encrypt_valid nc P K none trivial]
    exact encryptBody_ok nc P K _ c hk
  · rw [encrypt_valid nc P K (some (List.replicate 8 0)) (List.length_replicate 8 0)]
    exact encryptBody_ok nc P K _ c hk

theorem C4_default_iv_witness :
    sampleNewCipher 1 56 testKey = .ok (sampleCipher 0x79) ∧
    ∃ ct, Encrypt (sampleNewCipher 1 56) testInput testKey none = .ret (some ct) none ∧
      Encrypt (sampleNewCipher 1 56) testInput testKey (some (List.replicate 8 0))
        = .ret (some ct) none :=
  ⟨rfl, C4_default_iv (sampleNewCipher 1 56) testInput testKey (sampleCipher 0x79) rfl⟩

/-- C5: iv validation comes first in `Encrypt`. For every plaintext and every key, accepted
by the primitive or not, a non-nil iv whose length is not 8 (the empty slice included) makes
`Encrypt` return a nil ciphertext and the error "invalid iv length"; it does not panic. -/
theorem C5_encrypt_invalid_iv (nc : KeySetup) (P K iv : List Byte) (h : iv.length ≠ 8) :
    Encrypt nc P K (some iv) = .ret none (some "invalid iv length") := by
  simp [Encrypt, h]

theorem C5_encrypt_invalid_iv_witness :
    ([] : List Byte).length ≠ 8 ∧
    Encrypt (sampleNewCipher 24 24) badData badData (some [])
      = .ret none (some "invalid iv length") :=
  ⟨by decide, C5_encrypt_invalid_iv (sampleNewCipher 24 24) badData badData [] (by decide)⟩

/-- C6: length validation comes first in `Decrypt`. For every ciphertext whose length is not
a multiple of 8, every key (accepted or not) and every iv (nil, valid or of a wrong length),
`Decrypt` returns a nil plaintext and the error "invalid ciphertext length"; it does not
panic and looks at neither the key nor the iv. -/
theorem C6_decrypt_invalid_length (nc : KeySetup) (ct K : List Byte)
    (iv : Option (List Byte)) (h : ct.length % 8 ≠ 0) :
    Decrypt nc ct K iv = .ret none (some "invalid ciphertext length") := by
  simp [Decrypt, h]

theorem C6_decrypt_invalid_length_witness :
    badData.length % 8 ≠ 0 ∧
    Decrypt (sampleNewCipher 24 24) badData badData (some badData)
      = .ret none (some "invalid ciphertext length") :=
  ⟨by decide,
    C6_decrypt_invalid_length (sampleNewCipher 24 24) badData badData (some badData)
      (by decide)⟩

/-- C7: what `Decrypt` does on the empty ciphertext. Length 0 passes the check
`len(ciphertext) % 8 != 0`, so the error "invalid ciphertext length" is not returned: a
non-nil iv of a wrong length gives "invalid iv length", and otherwise the call panics, with
the primitive's error when the key is rejected and with the runtime error of the slice
expression `ciphertext[:blowfish.BlockSize]` when the key is accepted. -/
theorem C7_decrypt_empty (nc : KeySetup) (K : List Byte) (iv : Option (List Byte)) :
    Decrypt nc [] K iv =
      if ValidIV iv then
        (match nc K with
         | .error e => .panic (.keyError e)
         | .ok _ => .panic .sliceBounds)
      else .ret none (some "invalid iv length") := by
  cases iv with
  | none =>
    simp only [Decrypt, decryptBody, ValidIV, sliceTo, BlockSize]
    cases nc K <;> simp
  | some v =>
    by_cases h : v.length = 8
    · simp only [Decrypt, decryptBody, ValidIV, sliceTo, BlockSize, h]
      cases nc K <;> simp
    · simp [Decrypt, ValidIV, h]

/-- C8: iv validation in `Decrypt`. For every ciphertext whose length is a multiple of 8 and
every key, accepted by the primitive or not, a non-nil iv whose length is not 8 makes
`Decrypt` return a nil plaintext and the error "invalid iv length"; it does not panic. -/
theorem C8_decrypt_invalid_iv (nc : KeySetup) (ct K iv : List Byte)
    (hlen : ct.length % 8 = 0) (hiv : iv.length ≠ 8) :
    Decrypt nc ct K (some iv) = .ret none (some "invalid iv length") := by
  simp [Decrypt, hlen, hiv]

theorem C8_decrypt_invalid_iv_witness :
    testOutput.length % 8 = 0 ∧ badData.length ≠ 8 ∧
    Decrypt (sampleNewCipher 24 24) testOutput badData (some badData)
      = .ret none (some "invalid iv length") :=
  ⟨by decide, by decide,
    C8_decrypt_invalid_iv (sampleNewCipher 24 24) testOutput badData badData (by decide)
      (by decide)⟩

/-- The test case of line 57 of the test file, run: on the 5-byte test value with the 24-byte
test key and the 8-byte test iv `Encrypt` returns a 16-byte ciphertext and a nil error, and
under no primitive that accepts the key does it return the error "invalid plaintext
length". -/
theorem encrypt_badData_run :
    Encrypt (sampleNewCipher 24 24) badData testKey (some testIV)
      = .ret (some [0, 0, 0, 0, 0, 0, 0, 0, 121, 121, 121, 28, 13, 16, 24, 52]) none ∧
    Encrypt (sampleNewCipher 24 24) badData testKey (some testIV)
      ≠ .ret none (some "invalid plaintext length") ∧
    ¬ ∃ nc : KeySetup, ∃ c : Cipher, nc testKey = .ok c ∧
        Encrypt nc badData testKey (some testIV)
          = .ret none (some "invalid plaintext length") := by
  refine ⟨by decide, by decide, ?_⟩
  rintro ⟨nc, c, hk, h⟩
  rw [encrypt_valid nc badData testKey (some testIV) (by decide),
    encryptBody_ok nc badData testKey _ c hk] at h
  simp at h

/-- C9: what `Encrypt` does with a misaligned plaintext. For every plaintext whose length is
not a multiple of 8, every key the primitive accepts and every valid iv, `Encrypt` returns a
nil error and the very ciphertext it returns for that plaintext followed by `8 - len(P) % 8`
zero bytes, whose length is 8 plus the padded length; the error "invalid plaintext length"
that the test and the doc comment of `Encrypt` call for is not returned. -/
theorem C9_misaligned_padded (nc : KeySetup) (P K : List Byte) (V : Option (List Byte))
    (c : Cipher) (hmis : P.length % 8 ≠ 0) (hk : nc K = .ok c) (hV : ValidIV V) :
    ∃ ct, Encrypt nc P K V = .ret (some ct) none ∧
      Encrypt nc (P ++ List.replicate (8 - P.length % 8) 0) K V = .ret (some ct) none ∧
      ct.length = 8 + (P.length + (8 - P.length % 8)) := by
  have hpad : checksizeAndPad P = P ++ List.replicate (8 - P.length % 8) 0 := by
    rw [checksizeAndPad_eq]
    have : (8 - P.length % 8) % 8 = 8 - P.length % 8 := by omega
    rw [this]
  have hidem : checksizeAndPad (checksizeAndPad P) = checksizeAndPad P :=
    checksizeAndPad_of_aligned _ (checksizeAndPad_aligned P)
  refine ⟨List.replicate 8 0 ++ encryptBlocks c ((checksizeAndPad P).length / 8)
    (List.replicate 8 0) (checksizeAndPad P), ?_, ?_, ?_⟩
  · rw [encrypt_valid nc P K V hV]
    exact encryptBody_ok nc P K _ c hk
  · rw [← hpad, encrypt_valid nc _ K V hV, encryptBody_ok nc _ K _ c hk, hidem]
  · have hl : (checksizeAndPad P).length = P.length + (8 - P.length % 8) := by
      rw [hpad, List.length_append, List.length_replicate]
    rw [List.length_append, List.length_replicate, encryptBlocks_length, hl]
    omega

theorem C9_misaligned_padded_witness :
    badData.length % 8 ≠ 0 ∧ sampleNewCipher 24 24 testKey = .ok (sampleCipher 0x79) ∧
    ValidIV (some testIV) ∧
    ∃ ct, Encrypt (sampleNewCipher 24 24) badData testKey (some testIV)
        = .ret (some ct) none ∧
      Encrypt (sampleNewCipher 24 24)
          (badData ++ List.replicate (8 - badData.length % 8) 0) testKey (some testIV)
        = .ret (some ct) none ∧
      ct.length = 8 + (badData.length + (8 - badData.length % 8)) :=
  ⟨by decide, rfl, by decide,
    C9_misaligned_padded (sampleNewCipher 24 24) badData testKey (some testIV)
      (sampleCipher 0x79) (by decide) rfl (by decide)⟩

/-- The test cases of lines 58 and 80 of the test file, run: with the 5-byte test key, the
test text and the test iv, neither `Encrypt` nor `Decrypt` returns the error "invalid key
length". Under a primitive that accepts 5-byte keys (as Blowfish does, 1 to 56 bytes) both
return data and a nil error; under one that accepts 24-byte keys only both panic with the
primitive's error; under no primitive is that error value returned. -/
theorem short_key_run :
    Encrypt (sampleNewCipher 1 56) testInput badData (some testIV)
      = .ret (some [0, 0, 0, 0, 0, 0, 0, 0, 32, 34, 55, 44, 27, 127, 31, 38,
          2, 36, 121, 103, 9, 30, 0, 10, 122, 112, 52, 114, 120, 66, 27, 30]) none ∧
    Decrypt (sampleNewCipher 1 56) testOutput badData (some testIV)
      = .ret (some [165, 109, 56, 91, 137, 81, 31, 249,
          45, 110, 76, 105, 72, 10, 33, 14]) none ∧
    Encrypt (sampleNewCipher 24 24) testInput badData (some testIV)
      = .panic (.keyError "crypto/blowfish: invalid key size") ∧
    Decrypt (sampleNewCipher 24 24) testOutput badData (some testIV)
      = .panic (.keyError "crypto/blowfish: invalid key size") ∧
    ¬ ∃ nc : KeySetup,
        Encrypt nc testInput badData (some testIV) = .ret none (some "invalid key length") ∨
        Decrypt nc testOutput badData (some testIV)
          = .ret none (some "invalid key length") := by
  refine ⟨by decide, by decide, by decide, by decide, ?_⟩
  rintro ⟨nc, h | h⟩
  · rw [encrypt_valid nc testInput badData (some testIV) (by decide)] at h
    cases hk : nc badData with
    | error e => rw [encryptBody_rejected nc _ _ _ e hk] at h; simp at h
    | ok c => rw [encryptBody_ok nc _ _ _ c hk] at h; simp at h
  · rw [decrypt_valid nc testOutput badData (some testIV) (by decide) (by decide)] at h
    cases hk : nc badData with
    | error e => simp [decryptBody, hk] at h
    | ok c =>
      rw [decryptBody_ok nc _ _ _ c hk (by decide) (by decide)] at h
      simp at h

/-- C10: what `Encrypt` and `Decrypt` do with a key, 24 bytes long or not. For every key,
every text and every valid iv, `Encrypt` panics with the primitive's error when the primitive
rejects the key and returns a ciphertext with a nil error when it accepts the key; for a text
of at least 8 bytes whose length is a multiple of 8, `Decrypt` likewise panics with the
primitive's error or returns a plaintext with a nil error. The error "invalid key length"
that the tests and the doc comments call for is returned in neither case. -/
theorem C10_key_not_an_error_value (nc : KeySetup) (text key : List Byte)
    (V : Option (List Byte)) (hV : ValidIV V) :
    (∀ e, nc key = .error e → Encrypt nc text key V = .panic (.keyError e)) ∧
    (∀ c, nc key = .ok c → ∃ ct, Encrypt nc text key V = .ret (some ct) none) ∧
    (text.length % 8 = 0 → 8 ≤ text.length →
      (∀ e, nc key = .error e → Decrypt nc text key V = .panic (.keyError e)) ∧
      (∀ c, nc key = .ok c → ∃ pt, Decrypt nc text key V = .ret (some pt) none)) := by
  refine ⟨?_, ?_, ?_⟩
  · intro e hk
    rw [encrypt_valid nc text key V hV, encryptBody_rejected nc _ _ _ e hk]
  · intro c hk
    rw [encrypt_valid nc text key V hV, encryptBody_ok nc _ _ _ c hk]
    exact ⟨_, rfl⟩
  · intro hlen h8
    refine ⟨?_, ?_⟩
    · intro e hk
      rw [decrypt_valid nc text key V hlen hV]
      simp [decryptBody, hk]
    · intro c hk
      rw [decrypt_valid nc text key V hlen hV, decryptBody_ok nc _ _ _ c hk h8 hlen]
      exact ⟨_, rfl⟩

theorem C10_key_not_an_error_value_witness :
    ValidIV (some testIV) ∧
    (∀ e, sampleNewCipher 24 24 badData = .error e →
      Encrypt (sampleNewCipher 24 24) testOutput badData (some testIV)
        = .panic (.keyError e)) ∧
    (∀ c, sampleNewCipher 24 24 badData = .ok c →
      ∃ ct, Encrypt (sampleNewCipher 24 24) testOutput badData (some testIV)
        = .ret (some ct) none) ∧
    (testOutput.length % 8 = 0 → 8 ≤ testOutput.length →
      (∀ e, sampleNewCipher 24 24 badData = .error e →
        Decrypt (sampleNewCipher 24 24) testOutput badData (some testIV)
          = .panic (.keyError e)) ∧
      (∀ c, sampleNewCipher 24 24 badData = .ok c →
        ∃ pt, Decrypt (sampleNewCipher 24 24) testOutput badData (some testIV)
          = .ret (some pt) none)) :=
  ⟨by decide,
    C10_key_not_an_error_value (sampleNewCipher 24 24) testOutput badData (some testIV)
      (by decide)⟩

/-! ## Auxiliary lemmas for the later claims -/

theorem decryptBody_rejected (nc : KeySetup) (ct key iv : List Byte) (e : String)
    (hk : nc key = .error e) : decryptBody nc ct key iv = .panic (.keyError e) := by
  simp only [decryptBody, hk]

/-- C11: a key the primitive rejects aborts the call. Whenever the primitive's key
initialisation fails, `Encrypt` called with a valid iv panics with the primitive's error, and
`Decrypt` called with a ciphertext whose length is a multiple of 8 and a valid iv panics with
it; neither returns an error value. -/
theorem C11_rejected_key_panics (nc : KeySetup) (P ct key : List Byte)
    (V : Option (List Byte)) (e : String) (hk : nc key = .error e) (hV : ValidIV V)
    (hlen : ct.length % 8 = 0) :
    Encrypt nc P key V = .panic (.keyError e) ∧ Decrypt nc ct key V = .panic (.keyError e) := by
  constructor
  · rw [encrypt_valid nc P key V hV, encryptBody_rejected nc _ _ _ e hk]
  · rw [decrypt_valid nc ct key V hlen hV, decryptBody_rejected nc _ _ _ e hk]

theorem C11_rejected_key_panics_witness :
    sampleNewCipher 24 24 badData = .error "crypto/blowfish: invalid key size" ∧
    ValidIV (some testIV) ∧ testOutput.length % 8 = 0 ∧
    Encrypt (sampleNewCipher 24 24) testInput badData (some testIV)
      = .panic (.keyError "crypto/blowfish: invalid key size") ∧
    Decrypt (sampleNewCipher 24 24) testOutput badData (some testIV)
      = .panic (.keyError "crypto/blowfish: invalid key size") :=
  ⟨rfl, by decide, by decide,
    C11_rejected_key_panics (sampleNewCipher 24 24) testInput testOutput badData
      (some testIV) "crypto/blowfish: invalid key size" rfl (by decide) (by decide)⟩

/-- C12: `Decrypt` ignores the iv it is given. For every ciphertext `C` of at least 8 bytes
whose length is a multiple of 8, every accepted key and any two valid ivs, the two calls
return the same plaintext with a nil error: the CBC decryption of the bytes after the first
block, chained from the first 8 bytes of `C`. -/
theorem C12_decrypt_ignores_iv (nc : KeySetup) (C K : List Byte)
    (V1 V2 : Option (List Byte)) (c : Cipher) (hk : nc K = .ok c) (hV1 : ValidIV V1)
    (hV2 : ValidIV V2) (hlen : C.length % 8 = 0) (h8 : 8 ≤ C.length) :
    Decrypt nc C K V1 = Decrypt nc C K V2 ∧
    Decrypt nc C K V1 =
      .ret (some (decryptBlocks c ((C.length - 8) / 8) (C.take 8) (C.drop 8))) none := by
  rw [decrypt_valid nc C K V1 hlen hV1, decrypt_valid nc C K V2 hlen hV2,
    decryptBody_ok nc C K _ c hk h8 hlen, decryptBody_ok nc C K _ c hk h8 hlen]
  exact ⟨rfl, rfl⟩

theorem C12_decrypt_ignores_iv_witness :
    sampleNewCipher 1 56 testKey = .ok (sampleCipher 0x79) ∧ ValidIV (some testIV) ∧
    ValidIV none ∧ testOutput.length % 8 = 0 ∧ 8 ≤ testOutput.length ∧
    Decrypt (sampleNewCipher 1 56) testOutput testKey (some testIV)
      = Decrypt (sampleNewCipher 1 56) testOutput testKey none ∧
    Decrypt (sampleNewCipher 1 56) testOutput testKey (some testIV) =
      .ret (some (decryptBlocks (sampleCipher 0x79) ((testOutput.length - 8) / 8)
        (testOutput.take 8) (testOutput.drop 8))) none :=
  ⟨rfl, by decide, by decide, by decide, by decide,
    C12_decrypt_ignores_iv (sampleNewCipher 1 56) testOutput testKey (some testIV) none
      (sampleCipher 0x79) rfl (by decide) (by decide) (by decide) (by decide)⟩

/-- C13: the padding. For every byte sequence `x`, `checksizeAndPad x` is `x` unchanged when
`len(x)` is a multiple of 8 and otherwise `x` followed by exactly `8 - len(x) % 8` zero
bytes; the empty input gives the empty output. -/
theorem C13_checksizeAndPad_spec (x : List Byte) :
    checksizeAndPad x =
      (if x.length % 8 = 0 then x else x ++ List.replicate (8 - x.length % 8) 0) ∧
    checksizeAndPad [] = [] := by
  refine ⟨?_, by decide⟩
  split
  · rename_i h
    exact checksizeAndPad_of_aligned x h
  · rename_i h
    rw [checksizeAndPad_eq]
    have : (8 - x.length % 8) % 8 = 8 - x.length % 8 := by omega
    rw [this]

/-- The comparison of `TestBlowfish`, run: on the test fixture `Encrypt` returns 32 bytes,
not the 24 bytes of the recorded `output`; and under no primitive does it return
`output`. -/
theorem encrypt_fixture_run :
    Encrypt (sampleNewCipher 1 56) testInput testKey (some testIV)
      = .ret (some [0, 0, 0, 0, 0, 0, 0, 0, 20, 22, 3, 24, 47, 75, 43, 18,
          2, 36, 121, 103, 9, 30, 0, 10, 78, 68, 0, 70, 76, 118, 47, 42]) none ∧
    testOutput.length = 24 ∧
    ¬ ∃ nc : KeySetup,
        Encrypt nc testInput testKey (some testIV) = .ret (some testOutput) none := by
  refine ⟨by decide, by decide, ?_⟩
  rintro ⟨nc, h⟩
  rw [encrypt_valid nc testInput testKey (some testIV) (by decide)] at h
  cases hk : nc testKey with
  | error e => rw [encryptBody_rejected nc _ _ _ e hk] at h; simp at h
  | ok c =>
    rw [encryptBody_ok nc _ _ _ c hk] at h
    have hl := congrArg (fun o => match o with
      | Outcome.ret (some d) _ => d.length
      | _ => 0) h
    simp only [List.length_append, List.length_replicate, encryptBlocks_length] at hl
    have h24 : (checksizeAndPad testInput).length = 24 := by decide
    have h24o : testOutput.length = 24 := by decide
    rw [h24, h24o] at hl
    omega

/-- C14: what `Encrypt` returns on the test fixture (24-byte input, 24-byte key, 8-byte iv).
With a key the primitive accepts it returns a nil error and a byte sequence of 32 bytes, an
8-byte prefix followed by 24 bytes of CBC output, which is therefore not the 24-byte
recorded `output` that `TestBlowfish` compares it with. -/
theorem C14_fixture_length (nc : KeySetup) (c : Cipher) (hk : nc testKey = .ok c) :
    ∃ ct, Encrypt nc testInput testKey (some testIV) = .ret (some ct) none ∧
      ct.length = 32 ∧ (ct.drop 8).length = 24 ∧ ct ≠ testOutput := by
  have h24 : (checksizeAndPad testInput).length = 24 := by decide
  have hl : (List.replicate 8 (0 : Byte) ++
      encryptBlocks c ((checksizeAndPad testInput).length / 8) (List.replicate 8 0)
        (checksizeAndPad testInput)).length = 32 := by
    rw [List.length_append, List.length_replicate, encryptBlocks_length, h24]
  refine ⟨List.replicate 8 0 ++ encryptBlocks c ((checksizeAndPad testInput).length / 8)
    (List.replicate 8 0) (checksizeAndPad testInput), ?_, hl, ?_, ?_⟩
  · rw [encrypt_valid nc testInput testKey (some testIV) (by decide)]
    exact encryptBody_ok nc testInput testKey _ c hk
  · rw [List.length_drop, hl]
  · intro h
    have h2 := congrArg List.length h
    rw [hl] at h2
    have h24o : testOutput.length = 24 := by decide
    omega

theorem C14_fixture_length_witness :
    sampleNewCipher 1 56 testKey = .ok (sampleCipher 0x79) ∧
    ∃ ct, Encrypt (sampleNewCipher 1 56) testInput testKey (some testIV)
        = .ret (some ct) none ∧
      ct.length = 32 ∧ (ct.drop 8).length = 24 ∧ ct ≠ testOutput :=
  ⟨rfl, C14_fixture_length (sampleNewCipher 1 56) (sampleCipher 0x79) rfl⟩

/-! ## Blocks of the CBC output -/

theorem block_length (b : Block) : b.val.length = 8 := b.2

theorem blockAt_append_zero (a r : List Byte) (ha : a.length = 8) :
    blockAt (a ++ r) 0 = a := by
  simp only [blockAt, Nat.mul_zero, List.drop_zero]
  exact List.take_left' ha

theorem blockAt_append_succ (a r : List Byte) (ha : a.length = 8) (j : Nat) :
    blockAt (a ++ r) (j + 1) = blockAt r j := by
  have h : 8 * (j + 1) = a.length + 8 * j := by omega
  simp only [blockAt]
  rw [h, List.drop_append]

theorem blockAt_drop (l : List Byte) (j : Nat) : blockAt (l.drop 8) j = blockAt l (j + 1) := by
  have h : 8 * (j + 1) = 8 + 8 * j := by omega
  simp only [blockAt]
  rw [List.drop_drop, h]

theorem blockAt_zero (l : List Byte) : blockAt l 0 = l.take 8 := by
  simp [blockAt]

theorem blockAt_length (l : List Byte) (i : Nat) (h : 8 * (i + 1) ≤ l.length) :
    (blockAt l i).length = 8 := by
  simp only [blockAt, List.length_take, List.length_drop]
  omega

theorem byte_xor_comm (x y : Byte) : x ^^^ y = y ^^^ x := by
  apply Fin.ext
  show (x.val ^^^ y.val) % 256 = (y.val ^^^ x.val) % 256
  rw [Nat.xor_comm]

theorem xorBytes_comm (a b : List Byte) : xorBytes a b = xorBytes b a := by
  induction a generalizing b with
  | nil => cases b <;> simp [xorBytes]
  | cons x xs ih =>
    cases b with
    | nil => simp [xorBytes]
    | cons y ys =>
      have ih2 := ih ys
      simp only [xorBytes] at ih2 ⊢
      simp only [List.zipWith_cons_cons, ih2, byte_xor_comm x y]

theorem xorBytes_left_cancel (p a b : List Byte) (ha : a.length ≤ p.length)
    (hb : b.length ≤ p.length) (h : xorBytes p a = xorBytes p b) : a = b := by
  have h1 := xorBytes_cancel a p ha
  have h2 := xorBytes_cancel b p hb
  rw [xorBytes_comm a p, h, xorBytes_comm p b, h2] at h1
  exact h1.symm

theorem encryptBlocks_block_zero (c : Cipher) (n : Nat) (iv src : List Byte) :
    blockAt (encryptBlocks c (n + 1) iv src) 0
      = (c.Encrypt (toBlock (xorBytes (blockAt src 0) iv))).val := by
  simp only [encryptBlocks]
  rw [blockAt_append_zero _ _ (block_length _), blockAt_zero]

theorem encryptBlocks_block_succ (c : Cipher) (n : Nat) (iv src : List Byte) (i : Nat)
    (hi : i + 1 < n) :
    blockAt (encryptBlocks c n iv src) (i + 1)
      = (c.Encrypt (toBlock (xorBytes (blockAt src (i + 1))
          (blockAt (encryptBlocks c n iv src) i)))).val := by
  induction n generalizing iv src i with
  | zero => omega
  | succ k ih =>
    have hout := (c.Encrypt (toBlock (xorBytes (src.take 8) iv))).2
    cases i with
    | zero =>
      cases k with
      | zero => omega
      | succ m =>
        simp only [encryptBlocks]
        rw [blockAt_append_succ _ _ hout, blockAt_append_zero _ _ hout,
          blockAt_append_zero _ _ (block_length _), ← blockAt_drop src 0, blockAt_zero]
    | succ j =>
      have hj : j + 1 < k := by omega
      have ih2 := ih (c.Encrypt (toBlock (xorBytes (src.take 8) iv))).val (src.drop 8) j hj
      simp only [encryptBlocks]
      rw [blockAt_append_succ _ _ hout, blockAt_append_succ _ _ hout, ih2, blockAt_drop]

theorem decryptBlocks_length (c : Cipher) (n : Nat) (iv src : List Byte)
    (hiv : iv.length = 8) (hsrc : src.length = 8 * n) :
    (decryptBlocks c n iv src).length = 8 * n := by
  induction n generalizing iv src with
  | zero => simp [decryptBlocks]
  | succ k ih =>
    have hd := (c.Decrypt (toBlock (src.take 8))).2
    have ht : (src.take 8).length = 8 := by rw [List.length_take]; omega
    have hdl : (src.drop 8).length = 8 * k := by rw [List.length_drop]; omega
    simp only [decryptBlocks, List.length_append, xorBytes_length, ih _ _ ht hdl]
    omega

theorem decryptBlocks_block (c : Cipher) (n : Nat) (iv src : List Byte)
    (hiv : iv.length = 8) (hsrc : src.length = 8 * n) (i : Nat) (hi : i < n) :
    blockAt (decryptBlocks c n iv src) i
      = xorBytes (c.Decrypt (toBlock (blockAt src i))).val (blockAt (iv ++ src) i) := by
  induction n generalizing iv src i with
  | zero => omega
  | succ k ih =>
    have hd := (c.Decrypt (toBlock (src.take 8))).2
    have ht : (src.take 8).length = 8 := by rw [List.length_take]; omega
    have hdl : (src.drop 8).length = 8 * k := by rw [List.length_drop]; omega
    have hfirst : (xorBytes (c.Decrypt (toBlock (src.take 8))).val iv).length = 8 := by
      rw [xorBytes_length]; omega
    simp only [decryptBlocks]
    cases i with
    | zero =>
      rw [blockAt_append_zero _ _ hfirst, blockAt_append_zero _ _ hiv, blockAt_zero]
    | succ j =>
      have hj : j < k := by omega
      rw [blockAt_append_succ _ _ hfirst, blockAt_append_succ _ _ hiv,
        ih _ _ ht hdl j hj, List.take_append_drop, blockAt_drop]

theorem sample_injective (k : Byte) : Function.Injective (sampleCipher k).Encrypt :=
  Function.LeftInverse.injective (sample_inverse k)

theorem checksizeAndPad_blocks_pos (P : List Byte) (hP : P ≠ []) :
    ∃ m, (checksizeAndPad P).length / 8 = m + 1 ∧ 8 ≤ (checksizeAndPad P).length := by
  have hl := checksizeAndPad_length P
  have hpos : 0 < P.length := List.length_pos.mpr hP
  refine ⟨(checksizeAndPad P).length / 8 - 1, ?_, ?_⟩ <;> omega

/-- C15: how `Encrypt` chains. With an accepted key and a supplied 8-byte iv, the first
output block after the 8-byte prefix is the encryption of the first padded plaintext block
xored with the zero block, and every later block is the encryption of its plaintext block
xored with the previous output block. For a non-empty plaintext, an iv that is not all zero
and an injective block encryption, the first block is therefore not the encryption of the
first plaintext block xored with the supplied iv. -/
theorem C15_chain_seed_is_zero (nc : KeySetup) (P K iv : List Byte) (c : Cipher)
    (hk : nc K = .ok c) (hlen : iv.length = 8) (hne : iv ≠ List.replicate 8 0)
    (hP : P ≠ []) (hinj : Function.Injective c.Encrypt) :
    ∃ ct, Encrypt nc P K (some iv) = .ret (some ct) none ∧
      blockAt (ct.drop 8) 0 = (c.Encrypt (toBlock
        (xorBytes (blockAt (checksizeAndPad P) 0) (List.replicate 8 0)))).val ∧
      blockAt (ct.drop 8) 0 ≠ (c.Encrypt (toBlock
        (xorBytes (blockAt (checksizeAndPad P) 0) iv))).val ∧
      ∀ i, i + 1 < (checksizeAndPad P).length / 8 →
        blockAt (ct.drop 8) (i + 1) = (c.Encrypt (toBlock
          (xorBytes (blockAt (checksizeAndPad P) (i + 1)) (blockAt (ct.drop 8) i)))).val := by
  obtain ⟨m, hm, h8⟩ := checksizeAndPad_blocks_pos P hP
  have hz : (List.replicate 8 (0 : Byte)).length = 8 := List.length_replicate 8 0
  have hb0 : (blockAt (checksizeAndPad P) 0).length = 8 := blockAt_length _ 0 (by omega)
  have hfirst : blockAt (encryptBlocks c ((checksizeAndPad P).length / 8)
      (List.replicate 8 0) (checksizeAndPad P)) 0 = (c.Encrypt (toBlock
        (xorBytes (blockAt (checksizeAndPad P) 0) (List.replicate 8 0)))).val := by
    rw [hm]
    exact encryptBlocks_block_zero c m _ _
  refine ⟨List.replicate 8 0 ++ encryptBlocks c ((checksizeAndPad P).length / 8)
    (List.replicate 8 0) (checksizeAndPad P), ?_, ?_, ?_, ?_⟩
  · rw [encrypt_valid nc P K (some iv) hlen]
    exact encryptBody_ok nc P K _ c hk
  · rw [List.drop_left' hz]
    exact hfirst
  · rw [List.drop_left' hz, hfirst]
    intro h
    have h1 := hinj (Subtype.ext h)
    have h2 := congrArg Subtype.val h1
    rw [toBlock_val _ (by rw [xorBytes_length]; omega),
      toBlock_val _ (by rw [xorBytes_length]; omega)] at h2
    exact hne (xorBytes_left_cancel _ _ _ (by omega) (by omega) h2).symm
  · intro i hi
    rw [List.drop_left' hz]
    exact encryptBlocks_block_succ c _ _ _ i hi

theorem C15_chain_seed_is_zero_witness :
    sampleNewCipher 1 56 testKey = .ok (sampleCipher 0x79) ∧ testIV.length = 8 ∧
    testIV ≠ List.replicate 8 0 ∧ testInput ≠ [] ∧
    ∃ ct, Encrypt (sampleNewCipher 1 56) testInput testKey (some testIV)
        = .ret (some ct) none ∧
      blockAt (ct.drop 8) 0 = ((sampleCipher 0x79).Encrypt (toBlock
        (xorBytes (blockAt (checksizeAndPad testInput) 0) (List.replicate 8 0)))).val ∧
      blockAt (ct.drop 8) 0 ≠ ((sampleCipher 0x79).Encrypt (toBlock
        (xorBytes (blockAt (checksizeAndPad testInput) 0) testIV))).val ∧
      ∀ i, i + 1 < (checksizeAndPad testInput).length / 8 →
        blockAt (ct.drop 8) (i + 1) = ((sampleCipher 0x79).Encrypt (toBlock
          (xorBytes (blockAt (checksizeAndPad testInput) (i + 1))
            (blockAt (ct.drop 8) i)))).val :=
  ⟨rfl, rfl, by decide, by decide,
    C15_chain_seed_is_zero (sampleNewCipher 1 56) testInput testKey testIV
      (sampleCipher 0x79) rfl rfl (by decide) (by decide) (sample_injective 0x79)⟩

/-- C16: the CBC decryption formula. For every ciphertext `C` of `8 * (n + 1)` bytes, every
accepted key and valid iv, `Decrypt` returns a nil error and a plaintext of exactly
`len(C) - 8` bytes whose `i`-th block, for `i < n`, is the block decryption of block `i + 1`
of `C` xored with block `i` of `C`. -/
theorem C16_decrypt_blocks (nc : KeySetup) (C K : List Byte) (V : Option (List Byte))
    (c : Cipher) (n : Nat) (hk : nc K = .ok c) (hV : ValidIV V)
    (hlen : C.length = 8 * (n + 1)) :
    ∃ pt, Decrypt nc C K V = .ret (some pt) none ∧ pt.length = C.length - 8 ∧
      ∀ i, i < n →
        blockAt pt i = xorBytes (c.Decrypt (toBlock (blockAt C (i + 1)))).val (blockAt C i) := by
  have ht : (C.take 8).length = 8 := by rw [List.length_take]; omega
  have hd : (C.drop 8).length = 8 * n := by rw [List.length_drop]; omega
  have hn : (C.length - 8) / 8 = n := by omega
  refine ⟨decryptBlocks c n (C.take 8) (C.drop 8), ?_, ?_, ?_⟩
  · rw [decrypt_valid nc C K V (by omega) hV,
      decryptBody_ok nc C K _ c hk (by omega) (by omega), hn]
  · rw [decryptBlocks_length c n _ _ ht hd]
    omega
  · intro i hi
    rw [decryptBlocks_block c n _ _ ht hd i hi, List.take_append_drop, blockAt_drop]

theorem C16_decrypt_blocks_witness :
    sampleNewCipher 1 56 testKey = .ok (sampleCipher 0x79) ∧ ValidIV (some testIV) ∧
    testOutput.length = 8 * (2 + 1) ∧
    ∃ pt, Decrypt (sampleNewCipher 1 56) testOutput testKey (some testIV)
        = .ret (some pt) none ∧
      pt.length = testOutput.length - 8 ∧
      ∀ i, i < 2 →
        blockAt pt i = xorBytes ((sampleCipher 0x79).Decrypt
          (toBlock (blockAt testOutput (i + 1)))).val (blockAt testOutput i) :=
  ⟨rfl, by decide, by decide,
    C16_decrypt_blocks (sampleNewCipher 1 56) testOutput testKey (some testIV)
      (sampleCipher 0x79) 2 rfl (by decide) (by decide)⟩

/-! ## The buffer behind `Decrypt` -/

theorem decryptBodyInPlace_fst (nc : KeySetup) (mem key iv : List Byte) :
    (decryptBodyInPlace nc mem key iv).1 = decryptBody nc mem key iv := by
  unfold decryptBodyInPlace decryptBody
  repeat' split
  all_goals rfl

theorem decryptInPlace_fst (nc : KeySetup) (mem key : List Byte) (iv : Option (List Byte)) :
    (DecryptInPlace nc mem key iv).1 = Decrypt nc mem key iv := by
  unfold DecryptInPlace Decrypt
  repeat' split
  all_goals first | rfl | exact decryptBodyInPlace_fst _ _ _ _

theorem decryptInPlace_valid (nc : KeySetup) (mem key : List Byte)
    (iv : Option (List Byte)) (hlen : mem.length % 8 = 0) (hiv : ValidIV iv) :
    DecryptInPlace nc mem key iv = decryptBodyInPlace nc mem key (iv.getD defaultIV) := by
  cases iv with
  | none => simp [DecryptInPlace, hlen]
  | some v =>
    have h : v.length = 8 := hiv
    simp [DecryptInPlace, hlen, h]

theorem decryptBodyInPlace_frame (nc : KeySetup) (mem key iv : List Byte) :
    (decryptBodyInPlace nc mem key iv).2 = mem ∨
      ∃ pt, (decryptBodyInPlace nc mem key iv).1 = .ret (some pt) none := by
  unfold decryptBodyInPlace
  repeat' split
  all_goals first | exact Or.inl rfl | exact Or.inr ⟨_, rfl⟩

theorem decryptInPlace_frame (nc : KeySetup) (mem key : List Byte)
    (iv : Option (List Byte)) :
    (DecryptInPlace nc mem key iv).2 = mem ∨
      ∃ pt, (DecryptInPlace nc mem key iv).1 = .ret (some pt) none := by
  unfold DecryptInPlace
  repeat' split
  all_goals first | exact Or.inl rfl | exact decryptBodyInPlace_frame _ _ _ _

theorem decryptBodyInPlace_ok (nc : KeySetup) (mem key iv : List Byte) (c : Cipher)
    (hk : nc key = .ok c) (h8 : 8 ≤ mem.length) (hlen : mem.length % 8 = 0) :
    decryptBodyInPlace nc mem key iv =
      (.ret (some (decryptBlocks c ((mem.length - 8) / 8) (mem.take 8) (mem.drop 8))) none,
        mem.take 8 ++ decryptBlocks c ((mem.length - 8) / 8) (mem.take 8) (mem.drop 8)) := by
  have h1 : (mem.length - 8) % 8 = 0 := by omega
  have h2 : min 8 mem.length = 8 := by omega
  have ht : (mem.take 8).length = 8 := by rw [List.length_take]; omega
  have hd : (mem.drop 8).length = 8 * ((mem.length - 8) / 8) := by
    rw [List.length_drop]; omega
  have hpl := decryptBlocks_length c ((mem.length - 8) / 8) _ _ ht hd
  have hdrop : mem.drop (8 + (decryptBlocks c ((mem.length - 8) / 8) (mem.take 8)
      (mem.drop 8)).length) = [] := by
    rw [hpl]; exact List.drop_of_length_le (by omega)
  simp [decryptBodyInPlace, hk, sliceTo, sliceFrom, NewCBC, CryptBlocks, BlockSize, h8, h1,
    h2, writeAt, hdrop]

/-- C17: `Decrypt` works in place. For every ciphertext buffer `C` of at least 8 bytes whose
length is a multiple of 8, accepted key and valid iv, `Decrypt` succeeds and afterwards the
caller's buffer holds its original first 8 bytes followed by the returned plaintext, with its
length unchanged; and for any arguments at all, when `Decrypt` returns an error the buffer is
unchanged. -/
theorem C17_decrypt_in_place (nc : KeySetup) (C K : List Byte) (V : Option (List Byte))
    (c : Cipher) (hk : nc K = .ok c) (hV : ValidIV V) (hlen : C.length % 8 = 0)
    (h8 : 8 ≤ C.length) :
    (∃ pt, Decrypt nc C K V = .ret (some pt) none ∧
      DecryptInPlace nc C K V = (.ret (some pt) none, C.take 8 ++ pt) ∧
      (C.take 8 ++ pt).length = C.length) ∧
    (∀ (nc2 : KeySetup) (C2 K2 : List Byte) (V2 : Option (List Byte))
        (d : Option (List Byte)) (e : String),
      Decrypt nc2 C2 K2 V2 = .ret d (some e) → (DecryptInPlace nc2 C2 K2 V2).2 = C2) := by
  constructor
  · have ht : (C.take 8).length = 8 := by rw [List.length_take]; omega
    have hd : (C.drop 8).length = 8 * ((C.length - 8) / 8) := by
      rw [List.length_drop]; omega
    refine ⟨decryptBlocks c ((C.length - 8) / 8) (C.take 8) (C.drop 8), ?_, ?_, ?_⟩
    · rw [decrypt_valid nc C K V hlen hV, decryptBody_ok nc C K _ c hk h8 hlen]
    · rw [decryptInPlace_valid nc C K V hlen hV,
        decryptBodyInPlace_ok nc C K _ c hk h8 hlen]
    · rw [List.length_append, ht, decryptBlocks_length c _ _ _ ht hd]
      omega
  · intro nc2 C2 K2 V2 d e herr
    rcases decryptInPlace_frame nc2 C2 K2 V2 with h | ⟨pt, h⟩
    · exact h
    · rw [decryptInPlace_fst, herr] at h
      simp at h

theorem C17_decrypt_in_place_witness :
    sampleNewCipher 1 56 testKey = .ok (sampleCipher 0x79) ∧ ValidIV (some testIV) ∧
    testOutput.length % 8 = 0 ∧ 8 ≤ testOutput.length ∧
    (∃ pt, Decrypt (sampleNewCipher 1 56) testOutput testKey (some testIV)
        = .ret (some pt) none ∧
      DecryptInPlace (sampleNewCipher 1 56) testOutput testKey (some testIV)
        = (.ret (some pt) none, testOutput.take 8 ++ pt) ∧
      (testOutput.take 8 ++ pt).length = testOutput.length) ∧
    (∀ (nc2 : KeySetup) (C2 K2 : List Byte) (V2 : Option (List Byte))
        (d : Option (List Byte)) (e : String),
      Decrypt nc2 C2 K2 V2 = .ret d (some e) → (DecryptInPlace nc2 C2 K2 V2).2 = C2) :=
  ⟨rfl, by decide, by decide, by decide,
    C17_decrypt_in_place (sampleNewCipher 1 56) testOutput testKey (some testIV)
      (sampleCipher 0x79) rfl (by decide) (by decide) (by decide)⟩

theorem decryptBody_not_misaligned (nc : KeySetup) (ct key iv : List Byte)
    (hlen : ct.length % 8 = 0) : decryptBody nc ct key iv ≠ .panic .notMultiple := by
  cases hk : nc key with
  | error e => rw [decryptBody_rejected nc ct key iv e hk]; simp
  | ok c =>
    by_cases h8 : 8 ≤ ct.length
    · rw [decryptBody_ok nc ct key iv c hk h8 hlen]; simp
    · simp [decryptBody, hk, sliceTo, BlockSize, h8]

/-- C18: the misalignment panic of `Decrypt` is unreachable. For every ciphertext, key and
iv the call never panics with "decrypted is not a multiple of blowfish.BlockSize": whenever
the length check has passed and the slice expression at offset 8 has succeeded, the length of
`decrypted` is a multiple of 8. -/
theorem C18_misalignment_panic_unreachable (nc : KeySetup) (ct key : List Byte)
    (iv : Option (List Byte)) :
    Decrypt nc ct key iv ≠ .panic .notMultiple ∧
    (∀ decrypted, ct.length % 8 = 0 → sliceFrom ct BlockSize = .ok decrypted →
      decrypted.length % BlockSize = 0) := by
  constructor
  · by_cases hlen : ct.length % 8 = 0
    · cases iv with
      | none =>
        rw [decrypt_valid nc ct key none hlen trivial]
        exact decryptBody_not_misaligned nc ct key _ hlen
      | some v =>
        by_cases hv : v.length = 8
        · rw [decrypt_valid nc ct key (some v) hlen hv]
          exact decryptBody_not_misaligned nc ct key _ hlen
        · simp [Decrypt, hlen, hv]
    · simp [Decrypt, hlen]
  · intro decrypted hlen hs
    simp only [sliceFrom, BlockSize] at hs ⊢
    split at hs
    · rename_i h8
      injection hs with hs
      rw [← hs, List.length_drop]
      omega
    · exact absurd hs (by simp)

/-- C19: the result of `Encrypt` does not depend on the iv it is given. For every plaintext
`P`, accepted key and any two valid ivs, the two calls return the same thing: a nil error and
eight zero bytes followed by the CBC encryption of the zero-padded `P` chained from the
all-zero block. -/
theorem C19_encrypt_ignores_iv (nc : KeySetup) (P K : List Byte)
    (V1 V2 : Option (List Byte)) (c : Cipher) (hk : nc K = .ok c) (hV1 : ValidIV V1)
    (hV2 : ValidIV V2) :
    Encrypt nc P K V1 = Encrypt nc P K V2 ∧
    Encrypt nc P K V1 =
      .ret (some (List.replicate 8 0 ++
        encryptBlocks c ((P ++ List.replicate ((8 - P.length % 8) % 8) 0).length / 8)
          (List.replicate 8 0) (P ++ List.replicate ((8 - P.length % 8) % 8) 0))) none := by
  rw [encrypt_valid nc P K V1 hV1, encrypt_valid nc P K V2 hV2,
    encryptBody_ok nc P K _ c hk, encryptBody_ok nc P K _ c hk, checksizeAndPad_eq]
  exact ⟨rfl, rfl⟩

theorem C19_encrypt_ignores_iv_witness :
    sampleNewCipher 1 56 testKey = .ok (sampleCipher 0x79) ∧ ValidIV (some testIV) ∧
    ValidIV none ∧
    Encrypt (sampleNewCipher 1 56) badData testKey (some testIV)
      = Encrypt (sampleNewCipher 1 56) badData testKey none ∧
    Encrypt (sampleNewCipher 1 56) badData testKey (some testIV) =
      .ret (some (List.replicate 8 0 ++
        encryptBlocks (sampleCipher 0x79)
          ((badData ++ List.replicate ((8 - badData.length % 8) % 8) 0).length / 8)
          (List.replicate 8 0)
          (badData ++ List.replicate ((8 - badData.length % 8) % 8) 0))) none :=
  ⟨rfl, by decide, by decide,
    C19_encrypt_ignores_iv (sampleNewCipher 1 56) badData testKey (some testIV) none
      (sampleCipher 0x79) rfl (by decide) (by decide)⟩

end Blowfish
